import Mathlib

/-!
# RedundantScopeChecker — verified model

A shallow embedding of the scope-usage tracking engine of
`RedundantScopeChecker.cc`, a Clang plugin that warns about file-scope
variable declarations that are unused or whose uses are confined to a
single nested block.

Pointers of the C++ code are modelled as natural numbers:
a `VarDecl*` (always canonical) becomes a declaration id `Nat`,
a `CompoundStmt*` becomes a block id `Nat`, and a `Stmt*` usage site
becomes a site id `Nat`.  A nullable `CompoundStmt*` becomes
`Option Nat` (`none` = `nullptr` = file scope).
-/

/-- `struct UsageInformation { Stmt *usedIn; CompoundStmt *parent;
std::vector<UsageInformation> children; }`.  `usedIn` is modelled as a
bare `Nat` because the visitor only ever stores non-null pointers in it
(a `DeclRefExpr*` for a leaf, a `CompoundStmt*` for a merged node). -/
inductive UsageInformation where
  | mk (usedIn : Nat) (parent : Option Nat) (children : List UsageInformation)

def UsageInformation.usedIn : UsageInformation → Nat
  | .mk u _ _ => u

def UsageInformation.parent : UsageInformation → Option Nat
  | .mk _ p _ => p

def UsageInformation.children : UsageInformation → List UsageInformation
  | .mk _ _ c => c

/-- The global `options` struct (five boolean flags, all `false` by
default).  The C++ code keeps it as process-wide mutable state; the model
passes the record explicitly. -/
structure Options where
  dumpAst : Bool := false
  noWarnUnused : Bool := false
  warnInit : Bool := false
  noShowUsages : Bool := false
  verbose : Bool := false

/-- `ScopeCheckerVisitor::merge`: scan `v` for the first entry whose
`parent` is `compound`; if none, leave `v` unchanged, otherwise replace
the suffix starting there by the single merged entry
`{ compound, parent, suffix }`. -/
def merge (v : List UsageInformation) (compound : Nat) (parent : Option Nat) :
    List UsageInformation :=
  let pre := v.takeWhile (fun u => u.parent != some compound)
  let post := v.dropWhile (fun u => u.parent != some compound)
  match post with
  | [] => v
  | _ :: _ => pre ++ [UsageInformation.mk compound parent post]

/-- `ScopeCheckerVisitor::mergeAll`: apply `merge` to every tracked
declaration's usage list (the loop skips empty lists, which is encoded
by the `if`).  The `unordered_map` is modelled as a function from
declaration ids to optional usage lists. -/
def mergeAll (usages : Nat → Option (List UsageInformation)) (stmt : Nat)
    (parent : Option Nat) : Nat → Option (List UsageInformation) :=
  fun d => (usages d).map (fun v => if v.isEmpty then v else merge v stmt parent)

/-- One attribute as the plugin sees it: `attr->getSpelling()` plus, for
`annotate` attributes, the annotation string. -/
structure AttrInfo where
  spelling : String
  annotValue : String

/-- `ScopeCheckerVisitor::isRcsIgnore`: returns true on the first
attribute spelled `used`, or spelled `annotate` with annotation string
`rcs_ignore`. -/
def isRcsIgnore : List AttrInfo → Bool
  | [] => false
  | a :: rest =>
      if a.spelling == "used" then true
      else if a.spelling == "annotate" && a.annotValue == "rcs_ignore" then true
      else isRcsIgnore rest

/-- The per-declaration facts `printRedundant` reads off a `VarDecl*`:
its attribute list, whether it has an initializer (`getInit() != nullptr`),
whether that initializer is constant-evaluatable, and
`hasExternalStorage()`. -/
structure DeclInfo where
  attrs : List AttrInfo
  hasInit : Bool
  initEvaluatable : Bool
  hasExternalStorage : Bool

/-- `ScopeCheckerVisitor::hasSideEffectInit`:
`if (init == nullptr || init->isEvaluatable(*context)) return false;
return true;`. -/
def hasSideEffectInit (info : DeclInfo) : Bool :=
  if !info.hasInit || info.initEvaluatable then false else true

/-- A diagnostic emitted for one declaration: the "Unused global
variable" warning, or the "only used in a smaller scope" warning
together with the usage list that `printNotes` would walk. -/
inductive Finding where
  | unusedWarning
  | redundantScope (uses : List UsageInformation)

/-- The body of the per-declaration loop of
`ScopeCheckerVisitor::printRedundant`, returning the diagnostic emitted
for one declaration (`none` = the loop `continue`s without reporting).
The source's final `outest != nullptr` guard is always true because
`usedIn` only ever holds non-null pointers, so it has no counterpart
here. -/
def printRedundantDecl (opts : Options) (info : DeclInfo)
    (uses : List UsageInformation) : Option Finding :=
  if isRcsIgnore info.attrs then none
  else if hasSideEffectInit info && !opts.warnInit then none
  else if 1 < uses.length then none
  else if info.hasExternalStorage then none
  else
    match uses with
    | [] => if !opts.noWarnUnused then some Finding.unusedWarning else none
    | u :: _ =>
        if u.children.isEmpty then none
        else some (Finding.redundantScope uses)

/-- The classifier verdicts of §4.6 of the specification. -/
inductive Verdict where
  | Unused
  | SingleUseAtFileScope
  | ConfinedToScope (tree : UsageInformation)
  | MultiplyUsed

/-- Modelled from the spec (§4.6 `classify`), for comparison with the
source's `printRedundantDecl`: empty list → `Unused`; a single leaf →
`SingleUseAtFileScope`; a single entry with children → `ConfinedToScope`
carrying that entry; two or more entries → `MultiplyUsed`. -/
def classifySpec (uses : List UsageInformation) : Verdict :=
  if 1 < uses.length then Verdict.MultiplyUsed
  else
    match uses with
    | [] => Verdict.Unused
    | u :: _ =>
        if u.children.isEmpty then Verdict.SingleUseAtFileScope
        else Verdict.ConfinedToScope u

/-- The diagnostic the spec expects for each verdict (`Unused` findings
are suppressed by `noWarnUnused`; `SingleUseAtFileScope` and
`MultiplyUsed` produce no finding). -/
def findingOfVerdict (opts : Options) : Verdict → Option Finding
  | Verdict.Unused =>
      if !opts.noWarnUnused then some Finding.unusedWarning else none
  | Verdict.SingleUseAtFileScope => none
  | Verdict.ConfinedToScope u => some (Finding.redundantScope [u])
  | Verdict.MultiplyUsed => none

/-! ## Command-line argument parsing (`parseArgs`) -/

/-- The keys of the `validOptions` map (a `std::map`, so held in sorted
string order). -/
def optionNames : List String :=
  ["-dump-ast", "-no-show-usages", "-no-warn-unused", "-verbose", "-warn-init"]

/-- Reading `*(validOptions[s].addr)`. -/
def getFlag (o : Options) : String → Bool
  | "-dump-ast" => o.dumpAst
  | "-no-show-usages" => o.noShowUsages
  | "-no-warn-unused" => o.noWarnUnused
  | "-verbose" => o.verbose
  | "-warn-init" => o.warnInit
  | _ => false

/-- Writing `*(validOptions[s].addr) = true`. -/
def setFlag (o : Options) : String → Options
  | "-dump-ast" => { o with dumpAst := true }
  | "-no-show-usages" => { o with noShowUsages := true }
  | "-no-warn-unused" => { o with noWarnUnused := true }
  | "-verbose" => { o with verbose := true }
  | "-warn-init" => { o with warnInit := true }
  | _ => o

/-- Outcome of `parseArgs`.  `helpExit` models the `printHelp(); exit(1)`
branch and `fatalError` models `fatal(...)`, which prints the message and
calls `exit(1)`; both leave the process with a non-zero status before
any analysis runs.  `ok` models returning normally with the flags set. -/
inductive ParseOutcome where
  | ok (opts : Options)
  | helpExit
  | fatalError (msg : String)

/-- The `for (auto &s : args)` loop of `parseArgs`. -/
def parseLoop : List String → Options → ParseOutcome
  | [], o => ParseOutcome.ok o
  | s :: rest, o =>
      if s ∈ optionNames then
        if getFlag o s = false then parseLoop rest (setFlag o s)
        else ParseOutcome.fatalError ("same option specified twice: " ++ s)
      else ParseOutcome.fatalError ("unknown option: " ++ s)

/-- `parseArgs`: the special-cased lone `-help` argument, then the
option loop starting from the all-false defaults. -/
def parseArgs (args : List String) : ParseOutcome :=
  if args = ["-help"] then ParseOutcome.helpExit
  else parseLoop args {}

/-- `true` exactly when the outcome is a process exit with non-zero
status before any analysis runs. -/
def exitsBeforeAnalysis : ParseOutcome → Bool
  | ParseOutcome.ok _ => false
  | ParseOutcome.helpExit => true
  | ParseOutcome.fatalError _ => true

/-! ## The AST traversal

The `RecursiveASTVisitor` walk is modelled as a recursion over a small
statement/declaration tree.  Only the node kinds the visitor reacts to
are represented:

* `varDecl d inHeader isParm` — a `VarDecl` node for canonical
  declaration `d`, carrying the two facts `VisitVarDecl` checks
  (`isInHeader`, `ParmVarDecl`);
* `declRef d site inHeader` — a `DeclRefExpr` at `site` whose found
  declaration is the variable `d` (`inHeader` is `isInHeader` of that
  declaration);
* `record ms` — any container that is not a `CompoundStmt` (for example
  a class body holding static data members and method bodies); the
  visitor traverses through it without touching `depth`/`parentStmt`;
* `compound b body` — a `CompoundStmt` with identity `b`.
-/
inductive Stmt where
  | varDecl (d : Nat) (inHeader : Bool) (isParm : Bool)
  | declRef (d : Nat) (site : Nat) (inHeader : Bool)
  | record (members : List Stmt)
  | compound (b : Nat) (body : List Stmt)

mutual
/-- All `CompoundStmt` identities occurring in a subtree. -/
def Stmt.blocks : Stmt → List Nat
  | .varDecl .. => []
  | .declRef .. => []
  | .record ms => blocksList ms
  | .compound b body => b :: blocksList body
def blocksList : List Stmt → List Nat
  | [] => []
  | s :: rest => s.blocks ++ blocksList rest
end

/-- The mutable state of `ScopeCheckerVisitor`: the `usages` map, the
`globals` vector, the current `parentStmt` and the compound-statement
nesting `depth`. -/
structure VState where
  usages : Nat → Option (List UsageInformation)
  globals : List Nat
  parentStmt : Option Nat
  depth : Nat

/-- The visitor state at construction time: empty map, empty vector,
`parentStmt = nullptr`, `depth = 0`. -/
def initialState : VState :=
  { usages := fun _ => none, globals := [], parentStmt := none, depth := 0 }

/-- The `depth == 0` branch of `VisitVarDecl`:
`globals.push_back(cd); usages[cd] = {};` — note that this push is
unconditional and that the map entry is (re)set to the empty list. -/
def registerDecl (st : VState) (d : Nat) : VState :=
  { st with
    globals := st.globals ++ [d]
    usages := fun x => if x = d then some [] else st.usages x }

/-- `VisitVarDecl`: skip declarations from headers and parameters;
register at depth zero. -/
def visitVarDecl (st : VState) (d : Nat) (inHeader isParm : Bool) : VState :=
  if inHeader then st
  else if isParm then st
  else if st.depth = 0 then registerDecl st d
  else st

/-- The tracked-reference branch of `VisitDeclRefExpr`:
`if (usages.count(vd)) usages[vd].push_back({e, parentStmt, {}});`. -/
def recordUse (st : VState) (d : Nat) (site : Nat) : VState :=
  match st.usages d with
  | none => st
  | some v =>
      { st with
        usages := fun x =>
          if x = d then
            some (v ++ [UsageInformation.mk site st.parentStmt []])
          else st.usages x }

/-- Entering a compound statement in `TraverseCompoundStmt`:
`depth++; parentStmt = stmt;` (the old `parentStmt` is saved by the
caller). -/
def enterBlock (st : VState) (b : Nat) : VState :=
  { st with parentStmt := some b, depth := st.depth + 1 }

mutual
/-- One step of the traversal.  The `compound` case is
`TraverseCompoundStmt`: bump `depth`, set `parentStmt`, recurse into the
body, run `mergeAll(stmt, parent)`, restore `parentStmt`, decrement
`depth`. -/
def visitStmt : Stmt → VState → VState
  | .varDecl d inHeader isParm, st => visitVarDecl st d inHeader isParm
  | .declRef d site inHeader, st =>
      if inHeader then st else recordUse st d site
  | .record ms, st => visitStmts ms st
  | .compound b body, st =>
      let st2 := visitStmts body (enterBlock st b)
      { st2 with
        usages := mergeAll st2.usages b st.parentStmt
        parentStmt := st.parentStmt
        depth := st2.depth - 1 }
def visitStmts : List Stmt → VState → VState
  | [], st => st
  | s :: rest, st => visitStmts rest (visitStmt s st)
end

/-- `HandleTranslationUnit`'s traversal: walk the whole translation unit
from the freshly constructed visitor state. -/
def runTU (tu : List Stmt) : VState := visitStmts tu initialState

/-- The whole of `printRedundant`: iterate the `globals` vector in
order, look each declaration's usage list up in the map
(`usages[vdecl]` default-constructs an empty list for absent keys), and
collect the emitted diagnostics.  `declProps` supplies the per-declaration
facts read off the `VarDecl*` itself. -/
def printRedundant (opts : Options) (declProps : Nat → DeclInfo)
    (st : VState) : List (Nat × Finding) :=
  st.globals.filterMap (fun d =>
    (printRedundantDecl opts (declProps d) ((st.usages d).getD [])).map
      (fun f => (d, f)))

/-! ## Derived notions used by the claims -/

/-- Entries tagged with `b` form a contiguous tail of `v`: every entry
from the first `b`-tagged one onwards is itself tagged `b`. -/
def tailTagged (b : Nat) (v : List UsageInformation) : Prop :=
  ∀ u ∈ v.dropWhile (fun x => x.parent != some b), u.parent = some b

mutual
/-- The usage sites of the leaves of a usage tree, left to right.  A
merged node contributes its children's leaves; a leaf contributes its
own site. -/
def UsageInformation.leaves : UsageInformation → List Nat
  | .mk s _ [] => [s]
  | .mk _ _ (c :: cs) => c.leaves ++ leavesList cs
def leavesList : List UsageInformation → List Nat
  | [] => []
  | c :: cs => c.leaves ++ leavesList cs
end

/-- Replace an entry's tag, keeping its site and children. -/
def retagTo (b : Option Nat) (u : UsageInformation) : UsageInformation :=
  UsageInformation.mk u.usedIn b u.children

/-- Exit a chain of nested blocks one level at a time: exit `b` into its
parent (the head of `chain`), then exit that block, and so on; the last
block of the chain is exited into `p`. -/
def collapseChain : List UsageInformation → Nat → List Nat → Option Nat →
    List UsageInformation
  | v, b, [], p => merge v b p
  | v, b, c :: rest, p => collapseChain (merge v b (some c)) c rest p

/-! ## Basic lemmas about `merge` -/

theorem takeWhile_append_all {α : Type} (p : α → Bool) (pre rest : List α)
    (h : ∀ x ∈ pre, p x = true) :
    (pre ++ rest).takeWhile p = pre ++ rest.takeWhile p := by
  induction pre with
  | nil => simp
  | cons a l ih =>
      have ha : p a = true := h a (by simp)
      simp only [List.cons_append, List.takeWhile_cons, ha, if_true]
      rw [ih (fun x hx => h x (by simp [hx]))]

theorem dropWhile_append_all {α : Type} (p : α → Bool) (pre rest : List α)
    (h : ∀ x ∈ pre, p x = true) :
    (pre ++ rest).dropWhile p = rest.dropWhile p := by
  induction pre with
  | nil => simp
  | cons a l ih =>
      have ha : p a = true := h a (by simp)
      simp only [List.cons_append, List.dropWhile_cons, ha, if_true]
      exact ih (fun x hx => h x (by simp [hx]))

theorem merge_of_no_tag (v : List UsageInformation) (b : Nat) (p : Option Nat)
    (h : ∀ u ∈ v, u.parent ≠ some b) : merge v b p = v := by
  have hd : v.dropWhile (fun u => u.parent != some b) = [] :=
    List.dropWhile_eq_nil_iff.mpr (fun x hx => by
      simp only [bne_iff_ne, ne_eq]
      exact h x hx)
  simp [merge, hd]

theorem merge_of_split (pre : List UsageInformation) (u0 : UsageInformation)
    (rest : List UsageInformation) (b : Nat) (p : Option Nat)
    (hpre : ∀ u ∈ pre, u.parent ≠ some b) (h0 : u0.parent = some b) :
    merge (pre ++ u0 :: rest) b p =
      pre ++ [UsageInformation.mk b p (u0 :: rest)] := by
  have hall : ∀ u ∈ pre, (fun x => x.parent != some b) u = true := by
    intro u hu
    simp only [bne_iff_ne, ne_eq]
    exact hpre u hu
  have h0' : (u0.parent != some b) = false := by simp [h0]
  have ht : (pre ++ u0 :: rest).takeWhile (fun u => u.parent != some b) = pre := by
    rw [takeWhile_append_all _ _ _ hall]
    simp [List.takeWhile_cons, h0']
  have hd : (pre ++ u0 :: rest).dropWhile (fun u => u.parent != some b) =
      u0 :: rest := by
    rw [dropWhile_append_all _ _ _ hall]
    simp [List.dropWhile_cons, h0']
  simp [merge, ht, hd]

theorem merge_nil (b : Nat) (p : Option Nat) : merge [] b p = [] := rfl

/-- C2: `merge` leaves a list with no entry tagged `block` unchanged;
otherwise it replaces the suffix starting at the first `block`-tagged
entry by the single merged entry `{ site = block, tag = parent,
children = removed entries in order }`; `mergeAll` applies this step to
every tracked declaration's list; and every block exit in the traversal
runs `mergeAll` on the state reached at the end of the block's body. -/
theorem claim_C2 (b : Nat) (p : Option Nat) :
    (∀ v : List UsageInformation,
      (∀ u ∈ v, u.parent ≠ some b) → merge v b p = v) ∧
    (∀ (pre : List UsageInformation) (u0 : UsageInformation)
      (rest : List UsageInformation),
      (∀ u ∈ pre, u.parent ≠ some b) → u0.parent = some b →
      merge (pre ++ u0 :: rest) b p =
        pre ++ [UsageInformation.mk b p (u0 :: rest)]) ∧
    (∀ (m : Nat → Option (List UsageInformation)) (d : Nat),
      mergeAll m b p d = (m d).map (fun v => merge v b p)) ∧
    (∀ (b' : Nat) (body : List Stmt) (st : VState),
      (visitStmt (Stmt.compound b' body) st).usages =
        mergeAll (visitStmts body (enterBlock st b')).usages b' st.parentStmt) := by
  refine ⟨merge_of_no_tag (b := b) (p := p),
          fun pre u0 rest h1 h2 => merge_of_split pre u0 rest b p h1 h2,
          fun m d => ?_, fun b' body st => ?_⟩
  · unfold mergeAll
    cases m d with
    | none => rfl
    | some v =>
        cases v with
        | nil => simp [merge_nil]
        | cons x xs => simp
  · rfl

/-- Witness for C2 at a concrete list: an entry tagged with block `1`
preceded by an entry tagged with block `2` merges into the prefix plus
one merged node. -/
theorem claim_C2_wit :
    merge [UsageInformation.mk 5 (some 2) [], UsageInformation.mk 7 (some 1) []]
        1 none =
      [UsageInformation.mk 5 (some 2) [],
       UsageInformation.mk 1 none [UsageInformation.mk 7 (some 1) []]] := by
  have h := (claim_C2 1 none).2.1 [UsageInformation.mk 5 (some 2) []]
    (UsageInformation.mk 7 (some 1) []) []
    (by
      intro u hu
      simp only [List.mem_singleton] at hu
      subst hu
      simp [UsageInformation.parent])
    (by simp [UsageInformation.parent])
  simpa using h

/-! ## Argument parsing lemmas -/

theorem getFlag_setFlag_mono (o : Options) (s t : String)
    (h : getFlag o t = true) : getFlag (setFlag o s) t = true := by
  unfold setFlag
  split <;> (revert h; unfold getFlag; split <;> simp_all)

theorem getFlag_setFlag_self (o : Options) (s : String) (h : s ∈ optionNames) :
    getFlag (setFlag o s) s = true := by
  simp only [optionNames, List.mem_cons, List.mem_singleton] at h
  rcases h with rfl | rfl | rfl | rfl | rfl | h
  · rfl
  · rfl
  · rfl
  · rfl
  · rfl
  · cases h

theorem parseLoop_exits_of_unknown (args : List String) (o : Options)
    (s : String) (h1 : s ∈ args) (h2 : s ∉ optionNames) :
    exitsBeforeAnalysis (parseLoop args o) = true := by
  induction args generalizing o with
  | nil => cases h1
  | cons t rest ih =>
      simp only [parseLoop]
      by_cases ht : t ∈ optionNames
      · rw [if_pos ht]
        by_cases hg : getFlag o t = false
        · rw [if_pos hg]
          rcases List.mem_cons.mp h1 with rfl | hs
          · exact absurd ht h2
          · exact ih (setFlag o t) hs
        · rw [if_neg hg]
          rfl
      · rw [if_neg ht]
        rfl

theorem parseLoop_exits_of_set (args : List String) (o : Options) (s : String)
    (_hs : s ∈ optionNames) (hset : getFlag o s = true) (h1 : s ∈ args) :
    exitsBeforeAnalysis (parseLoop args o) = true := by
  induction args generalizing o with
  | nil => cases h1
  | cons t rest ih =>
      simp only [parseLoop]
      by_cases ht : t ∈ optionNames
      · rw [if_pos ht]
        by_cases hg : getFlag o t = false
        · rw [if_pos hg]
          have hts : t ≠ s := by
            intro h
            rw [h, hset] at hg
            cases hg
          rcases List.mem_cons.mp h1 with rfl | h1'
          · exact absurd rfl hts
          · exact ih (setFlag o t) (getFlag_setFlag_mono o t s hset) h1'
        · rw [if_neg hg]
          rfl
      · rw [if_neg ht]
        rfl

theorem parseLoop_exits_of_dup (args : List String) (o : Options) (s : String)
    (hs : s ∈ optionNames) (hc : 2 ≤ args.count s) :
    exitsBeforeAnalysis (parseLoop args o) = true := by
  induction args generalizing o with
  | nil => simp at hc
  | cons t rest ih =>
      simp only [parseLoop]
      by_cases ht : t ∈ optionNames
      · rw [if_pos ht]
        by_cases hg : getFlag o t = false
        · rw [if_pos hg]
          by_cases hts : s = t
          · subst hts
            have hone : 0 < rest.count s := by
              rw [List.count_cons_self] at hc
              omega
            exact parseLoop_exits_of_set rest (setFlag o s) s hs
              (getFlag_setFlag_self o s hs) (List.count_pos_iff.mp hone)
          · rw [List.count_cons_of_ne hts] at hc
            exact ih (setFlag o t) hc
        · rw [if_neg hg]
          rfl
      · rw [if_neg ht]
        rfl

/-- C8: an unrecognized flag anywhere in the argument list, or a
recognized flag passed twice, makes `parseArgs` terminate the process
with a non-zero status before any analysis runs; the argument list
consisting of exactly the help flag prints the option table and exits
non-zero without running analysis. -/
theorem claim_C8 (args : List String) :
    ((∃ s ∈ args, s ∉ optionNames) →
      exitsBeforeAnalysis (parseArgs args) = true) ∧
    (∀ s ∈ optionNames, 2 ≤ args.count s →
      exitsBeforeAnalysis (parseArgs args) = true) ∧
    parseArgs ["-help"] = ParseOutcome.helpExit := by
  refine ⟨?_, ?_, by simp [parseArgs]⟩
  · rintro ⟨s, hs, hn⟩
    unfold parseArgs
    split
    · rfl
    · exact parseLoop_exits_of_unknown args {} s hs hn
  · intro s hs hc
    unfold parseArgs
    split
    · rfl
    · exact parseLoop_exits_of_dup args {} s hs hc

/-- Witness for C8: a concrete unknown flag, a concrete duplicated flag,
and the lone help flag all abort before analysis. -/
theorem claim_C8_wit :
    exitsBeforeAnalysis (parseArgs ["-bogus"]) = true ∧
    exitsBeforeAnalysis (parseArgs ["-verbose", "-verbose"]) = true ∧
    parseArgs ["-help"] = ParseOutcome.helpExit :=
  ⟨(claim_C8 ["-bogus"]).1 ⟨"-bogus", by simp, by decide⟩,
   (claim_C8 ["-verbose", "-verbose"]).2.1 "-verbose" (by decide) (by decide),
   (claim_C8 []).2.2⟩

/-! ## Suppression and filtering of findings -/

theorem isRcsIgnore_of_used (attrs : List AttrInfo) (a : AttrInfo)
    (ha : a ∈ attrs) (hs : a.spelling = "used") : isRcsIgnore attrs = true := by
  induction attrs with
  | nil => cases ha
  | cons b rest ih =>
      rcases List.mem_cons.mp ha with rfl | h
      · simp [isRcsIgnore, hs]
      · simp only [isRcsIgnore]
        split
        · rfl
        · split
          · rfl
          · exact ih h

/-- C9: a declaration carrying any attribute spelled `used` passes the
suppression check and produces no finding at all — the same outcome as
a declaration carrying only the `rcs_ignore` annotation. -/
theorem claim_C9 (opts : Options) (info : DeclInfo)
    (uses : List UsageInformation)
    (h : ∃ a ∈ info.attrs, a.spelling = "used") :
    printRedundantDecl opts info uses = none ∧
    printRedundantDecl opts
      { info with attrs := [AttrInfo.mk "annotate" "rcs_ignore"] } uses =
        none := by
  obtain ⟨a, ha, hs⟩ := h
  constructor
  · unfold printRedundantDecl
    rw [isRcsIgnore_of_used info.attrs a ha hs]
    simp
  · unfold printRedundantDecl
    simp [isRcsIgnore]

/-- Witness for C9: a tracked declaration with `__attribute__((used))`
and a confined usage tree is not reported. -/
theorem claim_C9_wit :
    printRedundantDecl {} (DeclInfo.mk [AttrInfo.mk "used" ""] false true false)
        [UsageInformation.mk 1 none [UsageInformation.mk 2 (some 1) []]] =
      none ∧
    printRedundantDecl {}
        (DeclInfo.mk [AttrInfo.mk "annotate" "rcs_ignore"] false true false)
        [UsageInformation.mk 1 none [UsageInformation.mk 2 (some 1) []]] =
      none :=
  claim_C9 {} (DeclInfo.mk [AttrInfo.mk "used" ""] false true false)
    [UsageInformation.mk 1 none [UsageInformation.mk 2 (some 1) []]]
    ⟨AttrInfo.mk "used" "", by simp, rfl⟩

/-- Counterexample to C5 as stated: a declaration with a side-effecting
initializer, an empty usage list, `warnInit` unset and `noWarnUnused`
unset is nevertheless NOT reported as `Unused` — the side-effect filter
skips the declaration before the unused check runs. -/
theorem claim_C5_cex :
    printRedundantDecl {} (DeclInfo.mk [] true false false) [] ≠
      some Finding.unusedWarning := by
  simp [printRedundantDecl, isRcsIgnore, hasSideEffectInit]

/-- C5 (amended): with `warnInit` unset, a declaration whose initializer
is present and not constant-evaluatable is excluded from ALL findings —
neither `ConfinedToScope` nor `Unused` is ever emitted for it. -/
theorem claim_C5 (opts : Options) (info : DeclInfo)
    (uses : List UsageInformation) (h1 : hasSideEffectInit info = true)
    (h2 : opts.warnInit = false) :
    printRedundantDecl opts info uses = none := by
  unfold printRedundantDecl
  split
  · rfl
  · rw [h1, h2]
    simp

/-- Witness for C5 (amended): a side-effecting initializer suppresses
both the confined-scope report and the unused report. -/
theorem claim_C5_wit :
    printRedundantDecl {} (DeclInfo.mk [] true false false)
        [UsageInformation.mk 1 none [UsageInformation.mk 2 (some 1) []]] =
      none :=
  claim_C5 {} (DeclInfo.mk [] true false false)
    [UsageInformation.mk 1 none [UsageInformation.mk 2 (some 1) []]] rfl rfl

/-- C1: for a declaration that passes the suppression, initializer and
external-storage filters (with `noWarnUnused` unset), the diagnostic
emitted by `printRedundant`'s loop body is exactly the one prescribed by
the spec's classifier over the final usage-record list: empty list →
`Unused`; one leaf entry → `SingleUseAtFileScope`, no finding; one entry
with children → `ConfinedToScope` carrying that entry; two or more
entries → `MultiplyUsed`, no finding. -/
theorem claim_C1 (opts : Options) (info : DeclInfo)
    (uses : List UsageInformation)
    (h1 : isRcsIgnore info.attrs = false)
    (h2 : (hasSideEffectInit info && !opts.warnInit) = false)
    (h3 : info.hasExternalStorage = false)
    (h4 : opts.noWarnUnused = false) :
    printRedundantDecl opts info uses =
      findingOfVerdict opts (classifySpec uses) ∧
    (classifySpec uses = Verdict.Unused ↔ uses = []) ∧
    (∀ u, uses = [u] → u.children = [] →
      classifySpec uses = Verdict.SingleUseAtFileScope) ∧
    (∀ u, uses = [u] → u.children ≠ [] →
      classifySpec uses = Verdict.ConfinedToScope u) ∧
    (2 ≤ uses.length → classifySpec uses = Verdict.MultiplyUsed) := by
  refine ⟨?_, ?_, ?_, ?_, ?_⟩
  · rcases uses with _ | ⟨u, rest⟩
    · simp [printRedundantDecl, classifySpec, findingOfVerdict, h1, h2, h3, h4]
    · rcases rest with _ | ⟨v, rest2⟩
      · by_cases hc : u.children.isEmpty <;>
          simp [printRedundantDecl, classifySpec, findingOfVerdict,
            h1, h2, h3, hc]
      · have hlen : 1 < (u :: v :: rest2).length := by
          simp only [List.length_cons]
          omega
        simp [printRedundantDecl, classifySpec, findingOfVerdict,
          h1, h2, h3, hlen]
  · constructor
    · intro hcl
      rcases uses with _ | ⟨u, rest⟩
      · rfl
      · exfalso
        rcases rest with _ | ⟨v, rest2⟩
        · by_cases hc : u.children.isEmpty <;>
            simp [classifySpec, hc] at hcl
        · have hlen : 1 < (u :: v :: rest2).length := by
            simp only [List.length_cons]
            omega
          simp [classifySpec, hlen] at hcl
    · intro h
      subst h
      rfl
  · intro u hu hc
    subst hu
    simp [classifySpec, hc]
  · intro u hu hc
    subst hu
    simp [classifySpec, hc]
  · intro hlen2
    have hlen : 1 < uses.length := hlen2
    unfold classifySpec
    rw [if_pos hlen]

/-- Witness for C1 at concrete inputs: with all filters off, an empty
list produces the unused warning, matching the spec classifier. -/
theorem claim_C1_wit :
    printRedundantDecl {} (DeclInfo.mk [] false true false) [] =
      findingOfVerdict {} (classifySpec []) :=
  (claim_C1 {} (DeclInfo.mk [] false true false) [] rfl rfl rfl rfl).1

/-! ## The traversal effect lemma

While the traversal is inside a block (`depth ≥ 1`), visiting any
subtree only appends entries to each tracked declaration's usage list,
and every appended entry is tagged with the block that was current when
the subtree was entered.  This is the inductive fact behind the merge
invariant (C3).
-/

/-- No usage list of `st` contains an entry tagged with any of the
blocks `bs`. -/
def usagesFreshFor (st : VState) (bs : List Nat) : Prop :=
  ∀ d v, st.usages d = some v → ∀ u ∈ v, ∀ b ∈ bs, u.parent ≠ some b

/-- `st'` is `st` with, for each declaration, some entries tagged with
`st.parentStmt` appended to its usage list; all other visitor state is
unchanged. -/
def extendsTagged (st st' : VState) : Prop :=
  st'.parentStmt = st.parentStmt ∧ st'.depth = st.depth ∧
  st'.globals = st.globals ∧
  ∀ d, ∃ news : List UsageInformation,
    st'.usages d = (st.usages d).map (fun v => v ++ news) ∧
    ∀ u ∈ news, u.parent = st.parentStmt

theorem extendsTagged_refl (st : VState) : extendsTagged st st :=
  ⟨rfl, rfl, rfl, fun d => ⟨[], by simp, by simp⟩⟩

theorem extendsTagged_trans (st st' st'' : VState)
    (h1 : extendsTagged st st') (h2 : extendsTagged st' st'') :
    extendsTagged st st'' := by
  obtain ⟨hp1, hd1, hg1, hu1⟩ := h1
  obtain ⟨hp2, hd2, hg2, hu2⟩ := h2
  refine ⟨hp2.trans hp1, hd2.trans hd1, hg2.trans hg1, fun d => ?_⟩
  obtain ⟨n1, he1, ht1⟩ := hu1 d
  obtain ⟨n2, he2, ht2⟩ := hu2 d
  refine ⟨n1 ++ n2, ?_, ?_⟩
  · rw [he2, he1]
    cases st.usages d <;> simp
  · intro u hu
    rcases List.mem_append.mp hu with h | h
    · exact ht1 u h
    · rw [hp1] at ht2
      exact ht2 u h


theorem enterBlock_usages (st : VState) (b : Nat) :
    (enterBlock st b).usages = st.usages := rfl

theorem enterBlock_parentStmt (st : VState) (b : Nat) :
    (enterBlock st b).parentStmt = some b := rfl

theorem enterBlock_depth (st : VState) (b : Nat) :
    (enterBlock st b).depth = st.depth + 1 := rfl

theorem enterBlock_globals (st : VState) (b : Nat) :
    (enterBlock st b).globals = st.globals := rfl

mutual
theorem visitStmt_extends : ∀ (s : Stmt) (st : VState), 1 ≤ st.depth →
    s.blocks.Nodup →
    (∀ b ∈ s.blocks, st.parentStmt ≠ some b) →
    usagesFreshFor st s.blocks →
    extendsTagged st (visitStmt s st)
  | Stmt.varDecl d ih ip, st, hd, _, _, _ => by
      have h0 : ¬ st.depth = 0 := by omega
      have heq : visitStmt (Stmt.varDecl d ih ip) st = st := by
        simp only [visitStmt, visitVarDecl]
        cases ih
        · cases ip
          · simp [h0]
          · simp
        · simp
      rw [heq]
      exact extendsTagged_refl st
  | Stmt.declRef d site ih, st, _, _, _, _ => by
      simp only [visitStmt]
      split
      · exact extendsTagged_refl st
      · unfold recordUse
        rcases hu : st.usages d with _ | v
        · exact extendsTagged_refl st
        · refine ⟨rfl, rfl, rfl, fun x => ?_⟩
          by_cases hx : x = d
          · subst hx
            refine ⟨[UsageInformation.mk site st.parentStmt []], ?_, ?_⟩
            · simp [hu]
            · intro u hmem
              simp only [List.mem_singleton] at hmem
              subst hmem
              rfl
          · refine ⟨[], ?_, by simp⟩
            simp [hx]
  | Stmt.record ms, st, hd, hnd, hp, hfresh =>
      visitStmts_extends ms st hd hnd hp hfresh
  | Stmt.compound b body, st, hd, hnd, hp, hfresh => by
      have hnd' := hnd
      simp only [Stmt.blocks, List.nodup_cons] at hnd'
      obtain ⟨hbnotin, hndbody⟩ := hnd'
      have h1 : extendsTagged (enterBlock st b)
          (visitStmts body (enterBlock st b)) := by
        refine visitStmts_extends body (enterBlock st b) ?_ hndbody ?_ ?_
        · rw [enterBlock_depth]
          omega
        · intro b' hb' he
          rw [enterBlock_parentStmt] at he
          injection he with he
          subst he
          exact hbnotin hb'
        · intro x v hv u hu' b' hb'
          rw [enterBlock_usages] at hv
          exact hfresh x v hv u hu' b' (by simp [Stmt.blocks, hb'])
      obtain ⟨hp1, hd1, hg1, hu1⟩ := h1
      rw [enterBlock_parentStmt] at hp1
      rw [enterBlock_depth] at hd1
      rw [enterBlock_globals] at hg1
      simp only [visitStmt]
      refine ⟨rfl, ?_, hg1, fun x => ?_⟩
      · show (visitStmts body (enterBlock st b)).depth - 1 = st.depth
        rw [hd1]
        omega
      · obtain ⟨n1, he1, ht1⟩ := hu1 x
        rw [enterBlock_usages] at he1
        rw [enterBlock_parentStmt] at ht1
        rcases hv : st.usages x with _ | v
        · refine ⟨[], ?_, by simp⟩
          simp only [mergeAll, he1, hv, Option.map_none']
        · have hvfresh : ∀ u ∈ v, u.parent ≠ some b := fun u hu' =>
            hfresh x v hv u hu' b (by simp [Stmt.blocks])
          rcases hn1 : n1 with _ | ⟨u0, news'⟩
          · subst hn1
            refine ⟨[], ?_, by simp⟩
            simp only [mergeAll, he1, hv, Option.map_some', List.append_nil]
            cases v with
            | nil => rfl
            | cons a v' =>
                rw [if_neg (by simp : ¬((a :: v').isEmpty = true))]
                rw [merge_of_no_tag _ _ _ hvfresh]
          · subst hn1
            refine ⟨[UsageInformation.mk b st.parentStmt (u0 :: news')], ?_, ?_⟩
            · simp only [mergeAll, he1, hv, Option.map_some']
              have hne : (v ++ u0 :: news').isEmpty = false := by
                cases v <;> rfl
              rw [if_neg (by rw [hne]; simp : ¬((v ++ u0 :: news').isEmpty = true))]
              rw [merge_of_split v u0 news' b st.parentStmt hvfresh
                (ht1 u0 (by simp))]
            · intro u hmem
              simp only [List.mem_singleton] at hmem
              subst hmem
              rfl
theorem visitStmts_extends : ∀ (l : List Stmt) (st : VState), 1 ≤ st.depth →
    (blocksList l).Nodup →
    (∀ b ∈ blocksList l, st.parentStmt ≠ some b) →
    usagesFreshFor st (blocksList l) →
    extendsTagged st (visitStmts l st)
  | [], st, _, _, _, _ => extendsTagged_refl st
  | s :: rest, st, hd, hnd, hp, hfresh => by
      have hnd' := hnd
      simp only [blocksList, List.nodup_append] at hnd'
      obtain ⟨hnds, hndrest, hdisj⟩ := hnd'
      have h1 : extendsTagged st (visitStmt s st) :=
        visitStmt_extends s st hd hnds
          (fun b hb => hp b (by simp [blocksList, hb]))
          (fun d v hv u hu' b hb =>
            hfresh d v hv u hu' b (by simp [blocksList, hb]))
      obtain ⟨hp1, hd1, hg1, hu1⟩ := h1
      have h2 : extendsTagged (visitStmt s st)
          (visitStmts rest (visitStmt s st)) := by
        refine visitStmts_extends rest (visitStmt s st) ?_ hndrest ?_ ?_
        · omega
        · intro b hb
          rw [hp1]
          exact hp b (by simp [blocksList, hb])
        · intro d v hv u hu' b hb
          obtain ⟨n1, he1, ht1⟩ := hu1 d
          rw [he1] at hv
          rcases hv0 : st.usages d with _ | v0
          · rw [hv0] at hv
            cases hv
          · rw [hv0, Option.map_some'] at hv
            injection hv with hv
            subst hv
            rcases List.mem_append.mp hu' with h | h
            · exact hfresh d v0 hv0 u h b (by simp [blocksList, hb])
            · rw [ht1 u h]
              exact hp b (by simp [blocksList, hb])
      exact extendsTagged_trans st (visitStmt s st)
        (visitStmts rest (visitStmt s st))
        ⟨hp1, hd1, hg1, hu1⟩ h2
end

/-- C3: at the moment a block `b` is exited — that is, on the state
`visitStmts body (enterBlock st b)` to which `TraverseCompoundStmt`
applies `mergeAll` — every tracked declaration's usage-record list has
all its `b`-tagged entries as a contiguous tail: each entry from the
first `b`-tagged one to the end of the list is tagged `b`, so the merge
step loses no entry tagged with a different block.  The hypotheses say
that block identities are unique (`Nodup`, pointer distinctness in the
source) and that the state entering `b` carries no tag of a block of
this subtree (those blocks have not been entered yet). -/
theorem claim_C3 (b : Nat) (body : List Stmt) (st : VState)
    (hnd : (blocksList body).Nodup)
    (hb : b ∉ blocksList body)
    (hfresh : usagesFreshFor st (b :: blocksList body)) :
    ∀ d v, (visitStmts body (enterBlock st b)).usages d = some v →
      tailTagged b v := by
  have h1 : extendsTagged (enterBlock st b)
      (visitStmts body (enterBlock st b)) := by
    refine visitStmts_extends body (enterBlock st b)
      (by rw [enterBlock_depth]; omega) hnd ?_ ?_
    · intro b' hb' he
      rw [enterBlock_parentStmt] at he
      injection he with he
      subst he
      exact hb hb'
    · intro d v hv u hu b' hb'
      rw [enterBlock_usages] at hv
      exact hfresh d v hv u hu b' (by simp [hb'])
  obtain ⟨-, -, -, hu1⟩ := h1
  intro d v hv
  obtain ⟨n1, he1, ht1⟩ := hu1 d
  rw [enterBlock_usages] at he1
  rw [enterBlock_parentStmt] at ht1
  rw [he1] at hv
  rcases hv0 : st.usages d with _ | v0
  · rw [hv0] at hv
    cases hv
  · rw [hv0, Option.map_some'] at hv
    injection hv with hv
    subst hv
    unfold tailTagged
    have hv0f : ∀ u ∈ v0, (fun x => x.parent != some b) u = true := by
      intro u hu
      simp only [bne_iff_ne, ne_eq]
      exact hfresh d v0 hv0 u hu b (by simp)
    rw [dropWhile_append_all _ _ _ hv0f]
    intro u hu
    exact ht1 u (List.dropWhile_subset _ hu)

/-- Witness for C3: a single tracked declaration referenced once inside
block `1`; at the exit of block `1` its list is one `1`-tagged entry,
which is trivially a contiguous tail. -/
theorem claim_C3_wit : tailTagged 1 [UsageInformation.mk 7 (some 1) []] := by
  refine claim_C3 1 [Stmt.declRef 0 7 false] (registerDecl initialState 0)
    (by simp [blocksList, Stmt.blocks]) (by simp [blocksList, Stmt.blocks])
    ?_ 0 [UsageInformation.mk 7 (some 1) []] rfl
  intro d v hv u hu b' hb'
  by_cases hd0 : d = 0
  · subst hd0
    simp only [registerDecl, initialState, if_pos rfl] at hv
    injection hv with hv
    subst hv
    cases hu
  · simp [registerDecl, initialState, hd0] at hv

/-- C7: a declaration referenced exactly once inside a conditional
branch nested two levels inside a function (function body block `f`,
branch block `c`, reference site `site`), and nowhere else, ends with a
usage-record list holding exactly one entry — a function-block node with
one branch-block child holding one leaf — and the classifier verdict on
that list is `ConfinedToScope` with exactly that tree, which
`printRedundant` reports for an unfiltered declaration. -/
theorem claim_C7 (g f c site : Nat) :
    (runTU [Stmt.varDecl g false false,
            Stmt.compound f [Stmt.compound c [Stmt.declRef g site false]]]).usages
        g =
      some [UsageInformation.mk f none
        [UsageInformation.mk c (some f)
          [UsageInformation.mk site (some c) []]]] ∧
    classifySpec [UsageInformation.mk f none
        [UsageInformation.mk c (some f)
          [UsageInformation.mk site (some c) []]]] =
      Verdict.ConfinedToScope (UsageInformation.mk f none
        [UsageInformation.mk c (some f)
          [UsageInformation.mk site (some c) []]]) ∧
    printRedundantDecl {} (DeclInfo.mk [] false true false)
        [UsageInformation.mk f none
          [UsageInformation.mk c (some f)
            [UsageInformation.mk site (some c) []]]] =
      some (Finding.redundantScope [UsageInformation.mk f none
        [UsageInformation.mk c (some f)
          [UsageInformation.mk site (some c) []]]]) := by
  refine ⟨?_, ?_, ?_⟩
  · simp [runTU, initialState, visitStmts, visitStmt, visitVarDecl,
      registerDecl, enterBlock, recordUse, mergeAll, merge,
      UsageInformation.parent, UsageInformation.children]
  · simp [classifySpec, UsageInformation.children]
  · simp [printRedundantDecl, isRcsIgnore, hasSideEffectInit,
      UsageInformation.children]

/-- A translation unit shaped like `samples/static_field.cpp` without
the re-declaration: a class body (`record`) holding the static data
member declaration `2`, followed by a `main` body (block `20`)
referencing it at site `50`. -/
def staticFieldTU : List Stmt :=
  [Stmt.record [Stmt.varDecl 2 false false],
   Stmt.compound 20 [Stmt.declRef 2 50 false]]

/-- A class body holding an otherwise unused static data member `3`. -/
def unusedMemberTU : List Stmt :=
  [Stmt.record [Stmt.varDecl 3 false false]]

/-- C10: eligibility for tracking depends on compound-statement depth
only.  Any non-header, non-parameter variable declaration visited at
depth zero is registered (fresh empty usage list, pushed to `globals`);
a `record` container such as a class body is traversed transparently,
so a static data member inside a class body at depth zero is registered
like any file-scope variable, and such members can yield both the
confined-scope finding and the unused finding. -/
theorem claim_C10 :
    (∀ (st : VState) (d : Nat), st.depth = 0 →
      (visitStmt (Stmt.varDecl d false false) st).usages d = some [] ∧
      d ∈ (visitStmt (Stmt.varDecl d false false) st).globals) ∧
    (∀ (st : VState) (ms : List Stmt),
      visitStmt (Stmt.record ms) st = visitStmts ms st) ∧
    (runTU staticFieldTU).globals = [2] ∧
    printRedundant {} (fun _ => DeclInfo.mk [] true true false)
        (runTU staticFieldTU) =
      [(2, Finding.redundantScope
        [UsageInformation.mk 20 none [UsageInformation.mk 50 (some 20) []]])] ∧
    printRedundant {} (fun _ => DeclInfo.mk [] false true false)
        (runTU unusedMemberTU) =
      [(3, Finding.unusedWarning)] := by
  refine ⟨?_, fun st ms => rfl, ?_, ?_, ?_⟩
  · intro st d h0
    simp [visitStmt, visitVarDecl, registerDecl, h0]
  · rfl
  · rfl
  · rfl

/-- Witness for C10: registering a fresh declaration at depth zero from
the initial state. -/
theorem claim_C10_wit :
    (visitStmt (Stmt.varDecl 5 false false) initialState).usages 5 =
      some [] ∧
    5 ∈ (visitStmt (Stmt.varDecl 5 false false) initialState).globals :=
  claim_C10.1 initialState 5 rfl

/-- The failing input for C4: the canonical declaration `2` is observed
at depth zero twice (as in `samples/static_field.cpp`, where the static
member is declared in the class body and then defined out of class),
with a reference (site `100` inside block `10`) between the two
observations and another (site `200` inside block `20`) after them. -/
def dupDeclTU : List Stmt :=
  [Stmt.varDecl 2 false false,
   Stmt.compound 10 [Stmt.declRef 2 100 false],
   Stmt.varDecl 2 false false,
   Stmt.compound 20 [Stmt.declRef 2 200 false]]

/-- C4 is violated by the code: re-observing a canonical declaration at
file scope pushes a SECOND entry onto `globals` and RESETS the
already-accumulated usage list (`usages[cd] = {}`), so the usage
recorded under block `10` is wiped — the final list holds only the
block-`20` tree instead of two entries — and `printRedundant` then
emits the confined-scope warning for the same declaration twice. -/
theorem claim_C4_eval :
    (runTU dupDeclTU).globals = [2, 2] ∧
    (visitStmts (List.take 3 dupDeclTU) initialState).usages 2 = some [] ∧
    (runTU dupDeclTU).usages 2 =
      some [UsageInformation.mk 20 none
        [UsageInformation.mk 200 (some 20) []]] ∧
    printRedundant {} (fun _ => DeclInfo.mk [] true true false)
        (runTU dupDeclTU) =
      [(2, Finding.redundantScope
         [UsageInformation.mk 20 none [UsageInformation.mk 200 (some 20) []]]),
       (2, Finding.redundantScope
         [UsageInformation.mk 20 none [UsageInformation.mk 200 (some 20) []]])] :=
  ⟨rfl, rfl, rfl, rfl⟩

/-! ## Merge associativity over nesting (C6) -/

/-- The innermost-to-outermost exit order `b, chain...` ends at this
outermost block. -/
def lastBlock : Nat → List Nat → Nat
  | b, [] => b
  | _, c :: rest => lastBlock c rest

theorem merge_all_tagged (v : List UsageInformation) (b : Nat)
    (p : Option Nat) (hv : v ≠ []) (ht : ∀ u ∈ v, u.parent = some b) :
    merge v b p = [UsageInformation.mk b p v] := by
  cases v with
  | nil => cases hv rfl
  | cons u0 rest =>
      have h := merge_of_split [] u0 rest b p (by simp) (ht u0 (by simp))
      simpa using h

theorem leaves_retagTo (t : Option Nat) (u : UsageInformation) :
    (retagTo t u).leaves = u.leaves := by
  cases u with
  | mk s p cs =>
      cases cs with
      | nil => rfl
      | cons c cs' => rfl

theorem leavesList_map_retagTo (t : Option Nat)
    (v : List UsageInformation) :
    leavesList (v.map (retagTo t)) = leavesList v := by
  induction v with
  | nil => rfl
  | cons c cs ih =>
      simp only [List.map_cons, leavesList, leaves_retagTo, ih]

theorem leavesList_merged_node (b : Nat) (t : Option Nat)
    (v : List UsageInformation) (hv : v ≠ []) :
    leavesList [UsageInformation.mk b t v] = leavesList v := by
  cases v with
  | nil => cases hv rfl
  | cons c cs => simp [leavesList, UsageInformation.leaves]

theorem collapseChain_all_tagged : ∀ (chain : List Nat)
    (v : List UsageInformation) (b : Nat) (p : Option Nat),
    v ≠ [] → (∀ u ∈ v, u.parent = some b) →
    ∃ cs, collapseChain v b chain p =
        [UsageInformation.mk (lastBlock b chain) p cs] ∧
      cs ≠ [] ∧ leavesList cs = leavesList v
  | [], v, b, p, hv, ht => by
      refine ⟨v, ?_, hv, rfl⟩
      simp only [collapseChain, lastBlock]
      exact merge_all_tagged v b p hv ht
  | c :: rest, v, b, p, hv, ht => by
      simp only [collapseChain, lastBlock]
      rw [merge_all_tagged v b (some c) hv ht]
      obtain ⟨cs, heq, hne, hl⟩ :=
        collapseChain_all_tagged rest [UsageInformation.mk b (some c) v] c p
          (by simp)
          (by
            intro u hu
            simp only [List.mem_singleton] at hu
            subst hu
            rfl)
      exact ⟨cs, heq, hne, hl.trans (leavesList_merged_node b (some c) v hv)⟩

/-- C6: collapsing one block level at a time along a chain of nested
block exits, and collapsing the whole subtree in a single pass at the
outermost block's exit (all entries viewed as belonging to that block),
yield isomorphic usage trees: in both cases the list becomes a single
merged entry with the same site (the outermost block), the same tag
(that block's parent), and the same leaf sites in the same order. -/
theorem claim_C6 (v : List UsageInformation) (b : Nat) (chain : List Nat)
    (p : Option Nat) (hv : v ≠ []) (ht : ∀ u ∈ v, u.parent = some b) :
    ∃ cs cs',
      collapseChain v b chain p =
        [UsageInformation.mk (lastBlock b chain) p cs] ∧
      merge (v.map (retagTo (some (lastBlock b chain)))) (lastBlock b chain)
          p =
        [UsageInformation.mk (lastBlock b chain) p cs'] ∧
      leavesList cs = leavesList cs' := by
  obtain ⟨cs, heq, hne, hl⟩ := collapseChain_all_tagged chain v b p hv ht
  refine ⟨cs, v.map (retagTo (some (lastBlock b chain))), heq, ?_, ?_⟩
  · refine merge_all_tagged _ _ _ ?_ ?_
    · simpa using hv
    · intro u hu
      obtain ⟨u0, _, rfl⟩ := List.mem_map.mp hu
      rfl
  · rw [hl, leavesList_map_retagTo]

/-- Witness for C6: two references inside an innermost block `3`,
collapsed through the chain `3 → 2 → 1` one exit at a time, against a
single merge at block `1`; both give a single block-`1` node with the
same leaves `5, 6`. -/
theorem claim_C6_wit :
    ∃ cs cs',
      collapseChain
          [UsageInformation.mk 5 (some 3) [], UsageInformation.mk 6 (some 3) []]
          3 [2, 1] none =
        [UsageInformation.mk 1 none cs] ∧
      merge
          (([UsageInformation.mk 5 (some 3) [],
             UsageInformation.mk 6 (some 3) []]).map (retagTo (some 1)))
          1 none =
        [UsageInformation.mk 1 none cs'] ∧
      leavesList cs = leavesList cs' :=
  claim_C6 [UsageInformation.mk 5 (some 3) [], UsageInformation.mk 6 (some 3) []]
    3 [2, 1] none (by simp)
    (by
      intro u hu
      rcases List.mem_cons.mp hu with rfl | hu'
      · rfl
      · simp only [List.mem_singleton] at hu'
        subst hu'
        rfl)
